import Mathlib

/-!
Verification of the loneliness-risk-index application (`src/app.py`).

The development shallowly embeds the two core pieces of the program:

* the identifier / column-name normalisation performed in `load_excel_sheets`
  (`df.columns.str.strip().str.lower().str.replace(" ", "")` and
  `df["tractid"].astype(str).str.replace("1400000US", "", regex=False).str.strip()`);
* the join-and-score pipeline of `main` and `calculate_weighted_risk_index`
  (pandas left merges with suffixes, and the weighted mean over the
  positive-weight columns present in the table).

Python/pandas values are modelled exactly where the claims need them:
strings as `List Char`, numeric cells as `ℚ`, missing cells (`NaN`) as an
explicit `null` constructor whose arithmetic absorbs (as IEEE NaN does in
pandas), DataFrames as a column list plus rows of association lists, and
Python dicts as association lists with insert-or-overwrite.
-/

namespace RiskApp

abbrev Chars := List Char

/-- Characters removed by Python `str.strip()` (the common whitespace set). -/
def isWS (c : Char) : Bool := c == ' ' || c == '\t' || c == '\n' || c == '\r'

/-- Remove leading whitespace, as `str.lstrip()`. -/
def trimLeft (l : Chars) : Chars := l.dropWhile isWS

/-- Remove trailing whitespace, as `str.rstrip()`. -/
def trimRight (l : Chars) : Chars := (l.reverse.dropWhile isWS).reverse

/-- Python `str.strip()`: trailing and leading whitespace removed. -/
def pyStrip (l : Chars) : Chars := trimRight (trimLeft l)

/-- Boolean test that `p` is an initial segment of `l`. -/
def begins : Chars → Chars → Bool
  | [], _ => true
  | _ :: _, [] => false
  | a :: as, b :: bs => a == b && begins as bs

/-- The fixed identifier scheme code stripped in `load_excel_sheets`. -/
def PAT : Chars := "1400000US".toList

/-- Fuelled worker for Python `str.replace(PAT, "")`: scan left to right,
removing each non-overlapping occurrence of `PAT` and continuing after it. -/
def removeAllF : Nat → Chars → Chars
  | 0, l => l
  | _ + 1, [] => []
  | n + 1, c :: cs =>
      if begins PAT (c :: cs) then removeAllF n ((c :: cs).drop PAT.length)
      else c :: removeAllF n cs

/-- Python `s.replace("1400000US", "")`: every occurrence removed in one
left-to-right pass (the fuel `l.length` always suffices). -/
def removeAll (l : Chars) : Chars := removeAllF l.length l

/-- The per-value tract-identifier transformation of `load_excel_sheets`:
`.str.replace("1400000US", "", regex=False).str.strip()`. -/
def normTract (l : Chars) : Chars := pyStrip (removeAll l)

/-- Does `l` contain an occurrence of `PAT` at some position? -/
def containsPat : Chars → Bool
  | [] => false
  | c :: cs => begins PAT (c :: cs) || containsPat cs

lemma begins_length : ∀ (p l : Chars), begins p l = true → p.length ≤ l.length
  | [], _, _ => Nat.zero_le _
  | _ :: _, [], h => by simp [begins] at h
  | _ :: as, _ :: bs, h => by
      simp only [begins, Bool.and_eq_true, beq_iff_eq] at h
      simpa [Nat.succ_le_succ_iff] using begins_length as bs h.2

lemma pat_length : PAT.length = 9 := rfl

lemma removeAllF_fuel : ∀ (n m : Nat) (l : Chars),
    l.length ≤ n → l.length ≤ m → removeAllF n l = removeAllF m l := by
  intro n
  induction n with
  | zero =>
    intro m l hn _
    have hl : l = [] := List.eq_nil_of_length_eq_zero (Nat.le_zero.mp hn)
    subst hl
    cases m <;> rfl
  | succ n ih =>
    intro m l hn hm
    cases l with
    | nil => cases m <;> rfl
    | cons c cs =>
      cases m with
      | zero => simp at hm
      | succ m =>
        simp only [List.length_cons] at hn hm
        have hdroplen : ((c :: cs).drop PAT.length).length = cs.length + 1 - 9 := by
          simp [List.length_drop, pat_length]
        by_cases hb : begins PAT (c :: cs) = true
        · have hlen : 9 ≤ cs.length + 1 := by
            have := begins_length PAT (c :: cs) hb
            simpa [pat_length] using this
          simp only [removeAllF, if_pos hb]
          apply ih
          · rw [hdroplen]; omega
          · rw [hdroplen]; omega
        · simp only [removeAllF, if_neg hb]
          have hcs : removeAllF n cs = removeAllF m cs := by
            apply ih <;> omega
          rw [hcs]

/-- When `PAT` starts the string, the scan removes it and continues after it. -/
lemma removeAll_head_match (c : Char) (cs : Chars) (h : begins PAT (c :: cs) = true) :
    removeAll (c :: cs) = removeAll ((c :: cs).drop PAT.length) := by
  have hlen : 9 ≤ cs.length + 1 := by
    have := begins_length PAT (c :: cs) h
    simpa [pat_length] using this
  show removeAllF (c :: cs).length (c :: cs) = _
  rw [show (c :: cs).length = cs.length + 1 from rfl]
  simp only [removeAllF, if_pos h]
  apply removeAllF_fuel
  · simp [List.length_drop, pat_length]
  · exact Nat.le_refl _

/-- When `PAT` does not start the string, the scan keeps the head character. -/
lemma removeAll_head_keep (c : Char) (cs : Chars) (h : begins PAT (c :: cs) = false) :
    removeAll (c :: cs) = c :: removeAll cs := by
  show removeAllF (c :: cs).length (c :: cs) = _
  rw [show (c :: cs).length = cs.length + 1 from rfl]
  simp only [removeAllF, h]
  rw [if_neg (by simp)]
  rfl

lemma removeAll_of_not_contains : ∀ (l : Chars), containsPat l = false → removeAll l = l := by
  intro l
  induction l with
  | nil => intro _; rfl
  | cons c cs ih =>
    intro h
    simp only [containsPat, Bool.or_eq_false_iff] at h
    rw [removeAll_head_keep c cs h.1, ih h.2]

lemma dropWhile_idem (p : Char → Bool) (l : Chars) :
    (l.dropWhile p).dropWhile p = l.dropWhile p := by
  induction l with
  | nil => rfl
  | cons c cs ih =>
    by_cases h : p c = true
    · simp [List.dropWhile_cons, h, ih]
    · simp [List.dropWhile_cons, h]

lemma dropWhile_decomp (p : Char → Bool) (l : Chars) : ∃ t, l = t ++ l.dropWhile p := by
  induction l with
  | nil => exact ⟨[], rfl⟩
  | cons c cs ih =>
    by_cases h : p c = true
    · obtain ⟨t, ht⟩ := ih
      exact ⟨c :: t, by simp [List.dropWhile_cons, h]; exact ht⟩
    · exact ⟨[], by simp [List.dropWhile_cons, h]⟩

lemma dropWhile_length_le (p : Char → Bool) (l : Chars) :
    (l.dropWhile p).length ≤ l.length := by
  induction l with
  | nil => exact Nat.le_refl _
  | cons c cs ih =>
    by_cases h : p c = true
    · simp only [List.dropWhile_cons, h, if_pos]
      exact Nat.le_trans ih (Nat.le_succ _)
    · simp [List.dropWhile_cons, h]

lemma head_false_of_dropWhile_eq (p : Char → Bool) (c : Char) (cs : Chars)
    (h : (c :: cs).dropWhile p = c :: cs) : p c = false := by
  by_contra hb
  have hc : p c = true := by
    cases hpc : p c
    · exact absurd hpc hb
    · rfl
  rw [List.dropWhile_cons, if_pos hc] at h
  have hlen := congrArg List.length h
  have := dropWhile_length_le p cs
  simp at hlen
  omega

lemma trimLeft_idem (l : Chars) : trimLeft (trimLeft l) = trimLeft l :=
  dropWhile_idem isWS l

lemma trimRight_idem (l : Chars) : trimRight (trimRight l) = trimRight l := by
  unfold trimRight
  rw [List.reverse_reverse, dropWhile_idem]

lemma trimRight_decomp (m : Chars) : ∃ t, m = trimRight m ++ t := by
  obtain ⟨t, ht⟩ := dropWhile_decomp isWS m.reverse
  refine ⟨t.reverse, ?_⟩
  conv_lhs => rw [← m.reverse_reverse, ht]
  simp [trimRight]

lemma trimLeft_of_trimRight (m : Chars) (h : trimLeft m = m) :
    trimLeft (trimRight m) = trimRight m := by
  obtain ⟨t, ht⟩ := trimRight_decomp m
  cases htr : trimRight m with
  | nil => simp [trimLeft]
  | cons c cs =>
    have hm : m = c :: (cs ++ t) := by rw [ht, htr]; simp
    have hc : isWS c = false := by
      apply head_false_of_dropWhile_eq isWS c (cs ++ t)
      rw [← hm]
      exact h
    simp [trimLeft, List.dropWhile_cons, hc]

lemma pyStrip_idem (l : Chars) : pyStrip (pyStrip l) = pyStrip l := by
  unfold pyStrip
  rw [trimLeft_of_trimRight (trimLeft l) (trimLeft_idem l), trimRight_idem]

/-- C2 counterexample: an occurrence of `"1400000US"` that is *not* at the
start of the input is removed by the code, not left in place: the value
`"ab1400000UScd"` does not start with the scheme code, yet normalisation
turns it into `"abcd"` instead of leaving it as mere whitespace-trimming
would. -/
theorem C2_counterexample :
    begins PAT ("ab1400000UScd".toList) = false ∧
    normTract ("ab1400000UScd".toList) = "abcd".toList ∧
    normTract ("ab1400000UScd".toList) ≠ pyStrip ("ab1400000UScd".toList) :=
  ⟨by decide, by decide, by decide⟩

/-- C2 (amended): the tract-identifier normalisation removes *every*
occurrence of the exact, case-sensitive literal `"1400000US"` in a single
left-to-right pass — not only an occurrence anchored at the start — and then
trims surrounding whitespace.  The spec example
`normalize("1400000US21111012300") = "21111012300"` still holds. -/
theorem C2_prop :
    normTract ("1400000US21111012300".toList) = "21111012300".toList ∧
    normTract ("ab1400000UScd".toList) = "abcd".toList ∧
    (∀ c cs, begins PAT (c :: cs) = true →
      removeAll (c :: cs) = removeAll ((c :: cs).drop PAT.length)) ∧
    (∀ c cs, begins PAT (c :: cs) = false →
      removeAll (c :: cs) = c :: removeAll cs) ∧
    (∀ l, normTract l = pyStrip (removeAll l)) :=
  ⟨by decide, by decide,
   fun c cs h => removeAll_head_match c cs h,
   fun c cs h => removeAll_head_keep c cs h,
   fun _ => rfl⟩

/-- C2 witness: the scan equations of `C2_prop` evaluated at a concrete
input that begins with the scheme code. -/
theorem C2_witness :
    removeAll ('1' :: "400000USz".toList) =
      removeAll (('1' :: "400000USz".toList).drop PAT.length) :=
  C2_prop.2.2.1 '1' ("400000USz".toList) (by decide)

/-- C3 counterexample: the normalisation is *not* idempotent on all strings.
Removing all occurrences of `"1400000US"` from `"14000001400000USUS"` in one
pass leaves `"1400000US"`, which a second application erases entirely, so
`normalize(normalize(x)) ≠ normalize(x)` at this input. -/
theorem C3_counterexample :
    normTract ("14000001400000USUS".toList) = "1400000US".toList ∧
    normTract (normTract ("14000001400000USUS".toList)) = "".toList ∧
    normTract (normTract ("14000001400000USUS".toList)) ≠
      normTract ("14000001400000USUS".toList) :=
  ⟨by decide, by decide, by decide⟩

/-- C3 (amended): the normalisation is idempotent on every input whose
normalised form contains no further occurrence of `"1400000US"` (in
particular on every purely numeric identifier); full idempotence fails
because one removal pass can splice together a new occurrence. -/
theorem C3_prop (l : Chars) (h : containsPat (normTract l) = false) :
    normTract (normTract l) = normTract l := by
  show pyStrip (removeAll (normTract l)) = normTract l
  rw [removeAll_of_not_contains _ h]
  show pyStrip (pyStrip (removeAll l)) = pyStrip (removeAll l)
  exact pyStrip_idem _

/-- C3 witness: idempotence at the spec's own example identifier. -/
theorem C3_witness :
    containsPat (normTract ("1400000US21111012300".toList)) = false ∧
    normTract (normTract ("1400000US21111012300".toList)) =
      normTract ("1400000US21111012300".toList) :=
  ⟨by decide, C3_prop ("1400000US21111012300".toList) (by decide)⟩

/-- A pandas cell: a string, a rational number, or missing (`NaN`). -/
inductive Val where
  | str (s : Chars)
  | num (q : ℚ)
  | null
deriving DecidableEq

abbrev Row := List (String × Val)

/-- A DataFrame: its column labels and its rows, each row an association
list from column label to cell. -/
structure DF where
  cols : List String
  rows : List Row
deriving DecidableEq

/-- `row[col]`: the first entry for the label, missing (`NaN`) when absent. -/
def getCell (r : Row) (c : String) : Val := (r.lookup c).getD Val.null

/-- `Series * weight`, with IEEE-NaN behaviour: a missing or non-numeric
cell stays missing. -/
def vmul (v : Val) (q : ℚ) : Val :=
  match v with
  | .num a => .num (a * q)
  | _ => .null

/-- Cellwise `+`, with IEEE-NaN behaviour. -/
def vadd (a b : Val) : Val :=
  match a, b with
  | .num x, .num y => .num (x + y)
  | _, _ => .null

/-- Cellwise `/` by a scalar, with IEEE-NaN behaviour. -/
def vdiv (v : Val) (q : ℚ) : Val :=
  match v with
  | .num a => .num (a / q)
  | _ => .null

/-- The numeric content of a cell (`0` when missing; only used under a
hypothesis that the cell is numeric). -/
def numOf (v : Val) : ℚ :=
  match v with
  | .num q => q
  | _ => 0

/-- A Python dict of weights: association list with unique keys, insertion
ordered (see `setEntry`). -/
abbrev Weights := List (String × ℚ)

/-- `valid_cols` of `calculate_weighted_risk_index`, kept together with
their weights: `[col for col in weights if col in df.columns and
weights[col] > 0]`. -/
def validPairs (cols : List String) (w : Weights) : Weights :=
  w.filter (fun p => decide (p.1 ∈ cols) && decide (0 < p.2))

/-- Python dict assignment / DataFrame column assignment on an association
list: overwrite in place when the key exists, append otherwise. -/
def setEntry {α : Type} (r : List (String × α)) (k : String) (v : α) :
    List (String × α) :=
  if k ∈ r.map Prod.fst then
    r.map (fun p => if p.1 = k then (k, v) else p)
  else r ++ [(k, v)]

/-- `df_clean[col] = series` restricted to one row. -/
def setCol (r : Row) (c : String) (v : Val) : Row := setEntry r c v

/-- The per-row value of `weighted_sum / total_weight` (and `None` when
`valid_cols` is empty, matching the early-return branch). -/
def rowScore (cols : List String) (w : Weights) (r : Row) : Val :=
  let vp := validPairs cols w
  if vp.isEmpty then Val.null
  else
    let ws := vp.foldl (fun acc p => vadd acc (vmul (getCell r p.1) p.2)) (Val.num 0)
    let tw := vp.foldl (fun acc p => acc + p.2) 0
    vdiv ws tw

/-- The column list after `df_clean["risk_index"] = ...`. -/
def addCol (cols : List String) (c : String) : List String :=
  if c ∈ cols then cols else cols ++ [c]

def warnNoValid : String := "No valid columns selected or all weights are zero."

/-- `calculate_weighted_risk_index(df, weights)`: the derived table together
with the list of warnings signalled through `st.warning`. -/
def calculate_weighted_risk_index (df : DF) (w : Weights) : DF × List String :=
  let vp := validPairs df.cols w
  if vp.isEmpty then
    (⟨addCol df.cols "risk_index",
      df.rows.map (fun r => setCol r "risk_index" Val.null)⟩,
     [warnNoValid])
  else
    (⟨addCol df.cols "risk_index",
      df.rows.map (fun r => setCol r "risk_index" (rowScore df.cols w r))⟩,
     [])

lemma lookup_eq_none_of_not_mem {α : Type} (c : String) (r : List (String × α))
    (h : c ∉ r.map Prod.fst) : r.lookup c = none := by
  induction r with
  | nil => rfl
  | cons p t ih =>
    obtain ⟨a, b⟩ := p
    simp only [List.map_cons, List.mem_cons] at h
    push_neg at h
    have hba : (c == a) = false := beq_eq_false_iff_ne.mpr h.1
    simp [List.lookup, hba, ih h.2]

lemma lookup_append {α : Type} (c : String) (r r' : List (String × α)) :
    (r ++ r').lookup c =
      match r.lookup c with
      | some v => some v
      | none => r'.lookup c := by
  induction r with
  | nil => rfl
  | cons p t ih =>
    obtain ⟨a, b⟩ := p
    cases hc : (c == a) <;> simp [List.lookup, hc, ih]

lemma lookup_map_replace_same {α : Type} (k : String) (v : α) (r : List (String × α))
    (h : k ∈ r.map Prod.fst) :
    (r.map (fun p => if p.1 = k then (k, v) else p)).lookup k = some v := by
  induction r with
  | nil => simp at h
  | cons p t ih =>
    obtain ⟨a, b⟩ := p
    simp only [List.map_cons]
    by_cases ha : a = k
    · rw [show (if (a, b).1 = k then (k, v) else (a, b)) = (k, v) from by simp [ha]]
      simp [List.lookup]
    · rw [show (if (a, b).1 = k then (k, v) else (a, b)) = (a, b) from by simp [ha]]
      have hk : k ∈ t.map Prod.fst := by
        simp only [List.map_cons, List.mem_cons] at h
        rcases h with h | h
        · exact absurd h.symm ha
        · exact h
      have hba : (k == a) = false := beq_eq_false_iff_ne.mpr (fun he => ha he.symm)
      simp [List.lookup, hba, ih hk]

lemma lookup_map_replace_other {α : Type} (k : String) (v : α) (c : String)
    (hck : c ≠ k) (r : List (String × α)) :
    (r.map (fun p => if p.1 = k then (k, v) else p)).lookup c = r.lookup c := by
  induction r with
  | nil => rfl
  | cons p t ih =>
    obtain ⟨a, b⟩ := p
    simp only [List.map_cons]
    by_cases ha : a = k
    · rw [show (if (a, b).1 = k then (k, v) else (a, b)) = (k, v) from by simp [ha]]
      have hba : (c == k) = false := beq_eq_false_iff_ne.mpr hck
      have hba' : (c == a) = false := beq_eq_false_iff_ne.mpr (ha ▸ hck)
      simp [List.lookup, hba, hba', ih]
    · rw [show (if (a, b).1 = k then (k, v) else (a, b)) = (a, b) from by simp [ha]]
      cases hc : (c == a) <;> simp [List.lookup, hc, ih]

lemma lookup_setEntry_same {α : Type} (r : List (String × α)) (k : String) (v : α) :
    (setEntry r k v).lookup k = some v := by
  unfold setEntry
  by_cases h : k ∈ r.map Prod.fst
  · rw [if_pos h]
    exact lookup_map_replace_same k v r h
  · rw [if_neg h, lookup_append, lookup_eq_none_of_not_mem k r h]
    simp [List.lookup]

lemma lookup_setEntry_other {α : Type} (r : List (String × α)) (k : String) (v : α)
    (c : String) (hck : c ≠ k) : (setEntry r k v).lookup c = r.lookup c := by
  unfold setEntry
  by_cases h : k ∈ r.map Prod.fst
  · rw [if_pos h]
    exact lookup_map_replace_other k v c hck r
  · rw [if_neg h, lookup_append]
    have hba : (c == k) = false := beq_eq_false_iff_ne.mpr hck
    cases hr : r.lookup c <;> simp [List.lookup, hba]

lemma getCell_setCol_same (r : Row) (c : String) (v : Val) :
    getCell (setCol r c v) c = v := by
  unfold getCell setCol
  rw [lookup_setEntry_same]
  rfl

lemma vadd_null_right (a : Val) : vadd a Val.null = Val.null := by
  cases a <;> rfl

lemma vadd_null_left (b : Val) : vadd Val.null b = Val.null := by
  cases b <;> rfl

lemma foldl_vadd_from_null (f : String × ℚ → Val) (l : Weights) :
    l.foldl (fun acc p => vadd acc (f p)) Val.null = Val.null := by
  induction l with
  | nil => rfl
  | cons p t ih =>
    simp only [List.foldl_cons, vadd_null_left]
    exact ih

lemma foldl_vadd_null_of_mem (f : String × ℚ → Val) (l : Weights)
    (p₀ : String × ℚ) (hmem : p₀ ∈ l) (hnull : f p₀ = Val.null) (acc : Val) :
    l.foldl (fun acc p => vadd acc (f p)) acc = Val.null := by
  induction l generalizing acc with
  | nil => simp at hmem
  | cons p t ih =>
    rcases List.mem_cons.mp hmem with h | h
    · subst h
      simp only [List.foldl_cons, hnull, vadd_null_right]
      exact foldl_vadd_from_null f t
    · simp only [List.foldl_cons]
      exact ih h _

lemma foldl_vadd_num (r : Row) (l : Weights)
    (h : ∀ p ∈ l, ∃ v, getCell r p.1 = Val.num v) (a : ℚ) :
    l.foldl (fun acc p => vadd acc (vmul (getCell r p.1) p.2)) (Val.num a) =
      Val.num (a + (l.map (fun p => numOf (getCell r p.1) * p.2)).sum) := by
  induction l generalizing a with
  | nil => simp
  | cons p t ih =>
    obtain ⟨v, hv⟩ := h p (List.mem_cons_self p t)
    have hstep : vadd (Val.num a) (vmul (getCell r p.1) p.2) = Val.num (a + v * p.2) := by
      rw [hv]; rfl
    simp only [List.foldl_cons, hstep]
    rw [ih (fun q hq => h q (List.mem_cons_of_mem _ hq))]
    simp only [List.map_cons, List.sum_cons, hv, numOf]
    rw [add_assoc]

lemma foldl_add_snd (l : Weights) (a : ℚ) :
    l.foldl (fun acc p => acc + p.2) a = a + (l.map Prod.snd).sum := by
  induction l generalizing a with
  | nil => simp
  | cons p t ih =>
    simp only [List.foldl_cons, List.map_cons, List.sum_cons, ih]
    ring

lemma sum_map_mul_const (c : ℚ) (f : String × ℚ → ℚ) (l : Weights) :
    (l.map (fun p => c * f p)).sum = c * (l.map f).sum := by
  induction l with
  | nil => simp
  | cons p t ih => simp [ih, mul_add]

lemma validPairs_pos (cols : List String) (w : Weights) (p : String × ℚ)
    (hp : p ∈ validPairs cols w) : 0 < p.2 := by
  have := List.mem_filter.mp hp
  simp only [Bool.and_eq_true, decide_eq_true_eq] at this
  exact this.2.2

lemma validPairs_mem_cols (cols : List String) (w : Weights) (p : String × ℚ)
    (hp : p ∈ validPairs cols w) : p.1 ∈ cols := by
  have := List.mem_filter.mp hp
  simp only [Bool.and_eq_true, decide_eq_true_eq] at this
  exact this.2.1

lemma validPairs_sub (cols : List String) (w : Weights) (p : String × ℚ)
    (hp : p ∈ validPairs cols w) : p ∈ w :=
  (List.mem_filter.mp hp).1

/-- C1 counterexample: with columns `x` (value missing for the row) and `y`
(value `5`), both with weight `1`, the code leaves the composite score
missing (`NaN`): the null is *not* treated as numeric zero, and the row does
not receive the defined score `(0*1 + 5*1)/(1+1)` the claim predicts. -/
theorem C1_counterexample :
    (calculate_weighted_risk_index
        ⟨["tractid", "x", "y"],
         [[("tractid", Val.str "1".toList), ("x", Val.null), ("y", Val.num 5)]]⟩
        [("x", 1), ("y", 1)]).1.rows =
      [[("tractid", Val.str "1".toList), ("x", Val.null), ("y", Val.num 5),
        ("risk_index", Val.null)]] ∧
    Val.null ≠ Val.num ((0 * 1 + 5 * 1) / (1 + 1)) :=
  ⟨by decide, by decide⟩

/-- C1 (amended): a null value in a valid (present, positive-weight) column
propagates through the weighted sum like IEEE NaN, so that row's composite
score is itself null (undefined) — it is not treated as zero and the row
does not receive a defined numeric score.  Each output row is its input row
with `risk_index` set to the row's score. -/
theorem C1_prop (df : DF) (w : Weights) :
    (calculate_weighted_risk_index df w).1.rows =
      df.rows.map (fun r => setCol r "risk_index" (rowScore df.cols w r)) ∧
    (∀ r p, p ∈ validPairs df.cols w → getCell r p.1 = Val.null →
      rowScore df.cols w r = Val.null) := by
  constructor
  · unfold calculate_weighted_risk_index
    by_cases h : (validPairs df.cols w).isEmpty
    · simp only [h, if_pos]
      apply List.map_congr_left
      intro r _
      have hnull : rowScore df.cols w r = Val.null := by
        unfold rowScore
        simp [h]
      rw [hnull]
    · simp [h]
  · intro r p hp hnull
    unfold rowScore
    have hne : (validPairs df.cols w).isEmpty = false := by
      cases he : (validPairs df.cols w).isEmpty
      · rfl
      · rw [List.isEmpty_iff] at he
        rw [he] at hp
        simp at hp
    simp only [hne]
    rw [if_neg (by simp)]
    have hws : (validPairs df.cols w).foldl
        (fun acc p => vadd acc (vmul (getCell r p.1) p.2)) (Val.num 0) = Val.null := by
      apply foldl_vadd_null_of_mem _ _ p hp
      rw [hnull]
      rfl
    rw [hws]
    rfl

/-- C1 witness: a concrete row with a null cell in a weighted column gets a
null score. -/
theorem C1_witness :
    rowScore ["x"] [("x", 1)] [("x", Val.null)] = Val.null :=
  (C1_prop ⟨["x"], [[("x", Val.null)]]⟩ [("x", 1)]).2
    [("x", Val.null)] ("x", 1) (by decide) rfl

/-- C5: if the weight map is empty, or every weight is non-positive, or no
weighted name is among the table's columns, then `valid_cols` is empty and
`calculate_weighted_risk_index` signals the diagnostic warning, sets the
composite score to null for every row, and returns without raising — it
never produces a default numeric score. -/
theorem C5_prop (df : DF) (w : Weights)
    (h : w = [] ∨ (∀ p ∈ w, p.2 ≤ 0) ∨ (∀ p ∈ w, p.1 ∉ df.cols)) :
    (calculate_weighted_risk_index df w).2 = [warnNoValid] ∧
    (calculate_weighted_risk_index df w).1.rows =
      df.rows.map (fun r => setCol r "risk_index" Val.null) ∧
    ∀ r ∈ (calculate_weighted_risk_index df w).1.rows,
      getCell r "risk_index" = Val.null := by
  have hvp : validPairs df.cols w = [] := by
    rcases h with h | h | h
    · simp [validPairs, h]
    · apply List.filter_eq_nil_iff.mpr
      intro p hp
      simp only [Bool.and_eq_true, decide_eq_true_eq, not_and]
      intro _
      exact not_lt.mpr (h p hp)
    · apply List.filter_eq_nil_iff.mpr
      intro p hp
      simp only [Bool.and_eq_true, decide_eq_true_eq, not_and]
      intro hc
      exact absurd hc (h p hp)
  have hempty : (validPairs df.cols w).isEmpty = true := by
    rw [hvp]
    rfl
  refine ⟨?_, ?_, ?_⟩
  · unfold calculate_weighted_risk_index
    simp [hempty]
  · unfold calculate_weighted_risk_index
    simp [hempty]
  · intro r hr
    unfold calculate_weighted_risk_index at hr
    rw [if_pos hempty] at hr
    simp only [List.mem_map] at hr
    obtain ⟨r₀, _, rfl⟩ := hr
    exact getCell_setCol_same r₀ "risk_index" Val.null

/-- C5 witness: the empty weight map on a one-row table. -/
theorem C5_witness :
    (calculate_weighted_risk_index ⟨["x"], [[("x", Val.num 1)]]⟩ []).2 = [warnNoValid] ∧
    (calculate_weighted_risk_index ⟨["x"], [[("x", Val.num 1)]]⟩ []).1.rows =
      (DF.mk ["x"] [[("x", Val.num 1)]]).rows.map
        (fun r => setCol r "risk_index" Val.null) ∧
    ∀ r ∈ (calculate_weighted_risk_index ⟨["x"], [[("x", Val.num 1)]]⟩ []).1.rows,
      getCell r "risk_index" = Val.null :=
  C5_prop ⟨["x"], [[("x", Val.num 1)]]⟩ [] (Or.inl rfl)

/-- C6: if every valid (present, positive-weight) column is numeric on a row
and lies within `[lo, hi]`, the row's composite score is defined and lies
within `[lo, hi]` (weighted-mean bound). -/
theorem C6_prop (cols : List String) (w : Weights) (r : Row) (lo hi : ℚ)
    (hne : validPairs cols w ≠ [])
    (hv : ∀ p ∈ validPairs cols w,
      ∃ v, getCell r p.1 = Val.num v ∧ lo ≤ v ∧ v ≤ hi) :
    ∃ s, rowScore cols w r = Val.num s ∧ lo ≤ s ∧ s ≤ hi := by
  have hpos : ∀ p ∈ validPairs cols w, 0 < p.2 := validPairs_pos cols w
  have hWpos : 0 < ((validPairs cols w).map Prod.snd).sum := by
    apply List.sum_pos
    · intro x hx
      obtain ⟨p, hp, rfl⟩ := List.mem_map.mp hx
      exact hpos p hp
    · intro hmap
      exact hne (List.map_eq_nil_iff.mp hmap)
  have hcell : ∀ p ∈ validPairs cols w, ∃ v, getCell r p.1 = Val.num v := by
    intro p hp
    obtain ⟨v, hv1, _⟩ := hv p hp
    exact ⟨v, hv1⟩
  have hSlo : lo * ((validPairs cols w).map Prod.snd).sum ≤
      ((validPairs cols w).map (fun p => numOf (getCell r p.1) * p.2)).sum := by
    rw [← sum_map_mul_const lo Prod.snd]
    apply List.sum_le_sum
    intro p hp
    obtain ⟨v, hv1, hlo, _⟩ := hv p hp
    rw [hv1]
    simp only [numOf]
    exact mul_le_mul_of_nonneg_right hlo (le_of_lt (hpos p hp))
  have hShi : ((validPairs cols w).map (fun p => numOf (getCell r p.1) * p.2)).sum ≤
      hi * ((validPairs cols w).map Prod.snd).sum := by
    rw [← sum_map_mul_const hi Prod.snd]
    apply List.sum_le_sum
    intro p hp
    obtain ⟨v, hv1, _, hhi⟩ := hv p hp
    rw [hv1]
    simp only [numOf]
    exact mul_le_mul_of_nonneg_right hhi (le_of_lt (hpos p hp))
  refine ⟨((validPairs cols w).map (fun p => numOf (getCell r p.1) * p.2)).sum /
      ((validPairs cols w).map Prod.snd).sum, ?_, ?_, ?_⟩
  · unfold rowScore
    have hne' : (validPairs cols w).isEmpty = false := by
      cases he : (validPairs cols w).isEmpty
      · rfl
      · exact absurd (List.isEmpty_iff.mp he) hne
    simp only [hne']
    rw [if_neg (by simp)]
    rw [foldl_vadd_num r (validPairs cols w) hcell 0, foldl_add_snd]
    simp [vdiv]
  · exact (le_div_iff₀ hWpos).mpr hSlo
  · exact (div_le_iff₀ hWpos).mpr hShi

/-- C6 witness: a single column of weight `2` with value `3` in `[0, 5]`. -/
theorem C6_witness :
    ∃ s, rowScore ["x"] [("x", 2)] [("x", Val.num 3)] = Val.num s ∧ 0 ≤ s ∧ s ≤ 5 := by
  apply C6_prop ["x"] [("x", 2)] [("x", Val.num 3)] 0 5 (by decide)
  intro p hp
  have hvp : validPairs ["x"] [("x", (2 : ℚ))] = [("x", 2)] := by decide
  rw [hvp] at hp
  rcases List.mem_singleton.mp hp with rfl
  exact ⟨3, rfl, by norm_num, by norm_num⟩

/-- `sheet.lower()`. -/
def lowerStr (s : String) : String := ⟨s.data.map Char.toLower⟩

/-- pandas suffix rule for `suffixes=("", suf)`: a right column whose name
collides with a left column gets `suf` appended; left columns keep names. -/
def renameFn (lcols : List String) (suf : String) (c : String) : String :=
  if c ∈ lcols then c ++ suf else c

/-- Apply the suffix rule to one right-hand row. -/
def renameRow (lcols : List String) (suf : String) (r : Row) : Row :=
  r.map (fun p => (renameFn lcols suf p.1, p.2))

/-- Concatenation of the per-left-row match lists (join fan-out). -/
def concatMap (f : Row → List Row) : List Row → List Row
  | [] => []
  | r :: rs => f r ++ concatMap f rs

/-- The output rows a single left row produces in
`left.merge(right, left_on=lk, right_on=rk, how="left", suffixes=("", suf))`:
all matching right rows (renamed), or one null-extended row if none match. -/
def mergeRows (L R : DF) (lk rk suf : String) (lr : Row) : List Row :=
  if (R.rows.filter (fun rr => decide (getCell rr rk = getCell lr lk))).isEmpty then
    [lr ++ (R.cols.map (renameFn L.cols suf)).map (fun c => (c, Val.null))]
  else
    (R.rows.filter (fun rr => decide (getCell rr rk = getCell lr lk))).map
      (fun rr => lr ++ renameRow L.cols suf rr)

/-- `merged_df.merge(df, left_on=lk, right_on=rk, how="left", suffixes=("", suf))`. -/
def leftMerge (L R : DF) (lk rk suf : String) : DF :=
  ⟨L.cols ++ R.cols.map (renameFn L.cols suf),
   concatMap (mergeRows L R lk rk suf) L.rows⟩

/-- The single row a left row produces when the right keys are unique. -/
def mergeOne (L R : DF) (lk rk suf : String) (lr : Row) : Row :=
  match R.rows.filter (fun rr => decide (getCell rr rk = getCell lr lk)) with
  | [] => lr ++ (R.cols.map (renameFn L.cols suf)).map (fun c => (c, Val.null))
  | rr :: _ => lr ++ renameRow L.cols suf rr

/-- The join loop of `main`: left-join each sheet that has a `tractid`
column onto the running table, suffixing collisions with the sheet name. -/
def joinAll (base : DF) (sheets : List (String × DF)) : DF :=
  sheets.foldl
    (fun acc sd =>
      if "tractid" ∈ sd.2.cols then
        leftMerge acc sd.2 "tractid_short" "tractid" ("_" ++ lowerStr sd.1)
      else acc)
    base

lemma filter_key_le_one (rows : List Row) (rk : String) (v : Val)
    (h : rows.Pairwise (fun a b => getCell a rk ≠ getCell b rk)) :
    (rows.filter (fun rr => decide (getCell rr rk = v))).length ≤ 1 := by
  induction rows with
  | nil => simp
  | cons a rs ih =>
    have hpair := List.pairwise_cons.mp h
    by_cases ha : getCell a rk = v
    · rw [List.filter_cons_of_pos (by simp [ha])]
      have hnil : rs.filter (fun rr => decide (getCell rr rk = v)) = [] := by
        apply List.filter_eq_nil_iff.mpr
        intro b hb
        simp only [decide_eq_true_eq]
        intro hbv
        exact hpair.1 b hb (by rw [ha, hbv])
      simp [hnil]
    · rw [List.filter_cons_of_neg (by simp [ha])]
      exact ih hpair.2

lemma mergeRows_unique (L R : DF) (lk rk suf : String) (lr : Row)
    (hR : R.rows.Pairwise (fun a b => getCell a rk ≠ getCell b rk)) :
    mergeRows L R lk rk suf lr = [mergeOne L R lk rk suf lr] := by
  unfold mergeRows mergeOne
  cases hms : R.rows.filter (fun rr => decide (getCell rr rk = getCell lr lk)) with
  | nil => simp [hms]
  | cons rr rest =>
    have hlen := filter_key_le_one R.rows rk (getCell lr lk) hR
    rw [hms] at hlen
    have hrest : rest = [] := by
      cases rest with
      | nil => rfl
      | cons x xs => simp at hlen
    subst hrest
    simp [hms]

lemma concatMap_singles (g : Row → Row) (f : Row → List Row)
    (h : ∀ r, f r = [g r]) : ∀ rows, concatMap f rows = rows.map g := by
  intro rows
  induction rows with
  | nil => rfl
  | cons r rs ih => simp [concatMap, h r, ih]

lemma mergeOne_ext (L R : DF) (lk rk suf : String) (lr : Row) :
    ∃ e, mergeOne L R lk rk suf lr = lr ++ e := by
  unfold mergeOne
  cases R.rows.filter (fun rr => decide (getCell rr rk = getCell lr lk)) with
  | nil => exact ⟨_, rfl⟩
  | cons rr rest => exact ⟨_, rfl⟩

lemma leftMerge_rows_unique (L R : DF) (lk rk suf : String)
    (hR : R.rows.Pairwise (fun a b => getCell a rk ≠ getCell b rk)) :
    (leftMerge L R lk rk suf).rows = L.rows.map (mergeOne L R lk rk suf) := by
  show concatMap (mergeRows L R lk rk suf) L.rows = _
  exact concatMap_singles _ _ (fun r => mergeRows_unique L R lk rk suf r hR) L.rows

lemma joinAll_map (sheets : List (String × DF)) :
    ∀ base : DF,
      (∀ sd ∈ sheets,
        sd.2.rows.Pairwise (fun a b => getCell a "tractid" ≠ getCell b "tractid")) →
      ∃ f : Row → Row,
        (joinAll base sheets).rows = base.rows.map f ∧ ∀ r, ∃ e, f r = r ++ e := by
  induction sheets with
  | nil =>
    intro base _
    exact ⟨id, by simp [joinAll], fun r => ⟨[], by simp⟩⟩
  | cons sd rest ih =>
    intro base hs
    by_cases hc : "tractid" ∈ sd.2.cols
    · have hstep : joinAll base (sd :: rest) =
          joinAll (leftMerge base sd.2 "tractid_short" "tractid" ("_" ++ lowerStr sd.1)) rest := by
        unfold joinAll
        rw [List.foldl_cons, if_pos hc]
      obtain ⟨g, hg, hge⟩ :=
        ih (leftMerge base sd.2 "tractid_short" "tractid" ("_" ++ lowerStr sd.1))
          (fun x hx => hs x (List.mem_cons_of_mem _ hx))
      refine ⟨fun r =>
        g (mergeOne base sd.2 "tractid_short" "tractid" ("_" ++ lowerStr sd.1) r), ?_, ?_⟩
      · rw [hstep, hg,
          leftMerge_rows_unique _ _ _ _ _ (hs sd (List.mem_cons_self sd rest)),
          List.map_map]
        rfl
      · intro r
        obtain ⟨e1, he1⟩ := mergeOne_ext base sd.2 "tractid_short" "tractid"
          ("_" ++ lowerStr sd.1) r
        obtain ⟨e2, he2⟩ := hge (r ++ e1)
        refine ⟨e1 ++ e2, ?_⟩
        show g (mergeOne base sd.2 "tractid_short" "tractid" ("_" ++ lowerStr sd.1) r) =
          r ++ (e1 ++ e2)
        rw [he1, he2, List.append_assoc]
    · have hstep : joinAll base (sd :: rest) = joinAll base rest := by
        unfold joinAll
        rw [List.foldl_cons, if_neg hc]
      obtain ⟨g, hg, hge⟩ := ih base (fun x hx => hs x (List.mem_cons_of_mem _ hx))
      exact ⟨g, by rw [hstep]; exact hg, hge⟩

/-- C4: with unique registry identifiers and unique normalised identifiers
in every joined sheet, the sequence of left-joins preserves the registry's
cardinality and order exactly: the output rows are the registry rows in
order, each merely extended with the joined fields — no base row is dropped
or duplicated. -/
theorem C4_prop (base : DF) (sheets : List (String × DF))
    (_hbase : base.rows.Pairwise
      (fun a b => getCell a "tractid_short" ≠ getCell b "tractid_short"))
    (hsheets : ∀ sd ∈ sheets,
      sd.2.rows.Pairwise (fun a b => getCell a "tractid" ≠ getCell b "tractid")) :
    (joinAll base sheets).rows.length = base.rows.length ∧
    ∃ f : Row → Row,
      (joinAll base sheets).rows = base.rows.map f ∧ ∀ r, ∃ e, f r = r ++ e := by
  obtain ⟨f, hf, hfe⟩ := joinAll_map sheets base hsheets
  exact ⟨by rw [hf, List.length_map], f, hf, hfe⟩

/-- C4 witness: a two-tract registry joined with one sheet that matches only
the first tract still yields exactly two rows extending the registry rows. -/
theorem C4_witness :
    (joinAll
        ⟨["tractid_short"],
         [[("tractid_short", Val.str "a".toList)], [("tractid_short", Val.str "b".toList)]]⟩
        [("S", ⟨["tractid", "x"], [[("tractid", Val.str "a".toList), ("x", Val.num 1)]]⟩)]).rows.length =
      (DF.mk ["tractid_short"]
        [[("tractid_short", Val.str "a".toList)], [("tractid_short", Val.str "b".toList)]]).rows.length ∧
    ∃ f : Row → Row,
      (joinAll
        ⟨["tractid_short"],
         [[("tractid_short", Val.str "a".toList)], [("tractid_short", Val.str "b".toList)]]⟩
        [("S", ⟨["tractid", "x"], [[("tractid", Val.str "a".toList), ("x", Val.num 1)]]⟩)]).rows =
        (DF.mk ["tractid_short"]
          [[("tractid_short", Val.str "a".toList)], [("tractid_short", Val.str "b".toList)]]).rows.map f ∧
      ∀ r, ∃ e, f r = r ++ e :=
  C4_prop
    ⟨["tractid_short"],
     [[("tractid_short", Val.str "a".toList)], [("tractid_short", Val.str "b".toList)]]⟩
    [("S", ⟨["tractid", "x"], [[("tractid", Val.str "a".toList), ("x", Val.num 1)]]⟩)]
    (by decide) (by decide)

lemma lookup_isSome_of_mem {α : Type} (c : String) (r : List (String × α))
    (h : c ∈ r.map Prod.fst) : ∃ v, r.lookup c = some v := by
  induction r with
  | nil => simp at h
  | cons p t ih =>
    obtain ⟨a, b⟩ := p
    by_cases hca : c = a
    · subst hca
      exact ⟨b, by simp [List.lookup]⟩
    · have h2 : (c == a) = false := beq_eq_false_iff_ne.mpr hca
      have hm : c ∈ t.map Prod.fst := by
        simp only [List.map_cons, List.mem_cons] at h
        rcases h with h | h
        · exact absurd h hca
        · exact h
      obtain ⟨v, hv⟩ := ih hm
      exact ⟨v, by simp [List.lookup, h2, hv]⟩

lemma lookup_map_rename (f : String → String) (c : String) (r : Row)
    (hinj : ∀ p ∈ r, f p.1 = f c → p.1 = c) :
    (r.map (fun p => (f p.1, p.2))).lookup (f c) = r.lookup c := by
  induction r with
  | nil => rfl
  | cons p t ih =>
    obtain ⟨a, b⟩ := p
    by_cases ha : a = c
    · subst ha
      simp [List.lookup]
    · have hfa : f c ≠ f a :=
        fun he => ha (hinj (a, b) (List.mem_cons_self _ _) he.symm)
      have h1 : (f c == f a) = false := beq_eq_false_iff_ne.mpr hfa
      have h2 : (c == a) = false := beq_eq_false_iff_ne.mpr (fun he => ha he.symm)
      simp only [List.map_cons, List.lookup, h1, h2]
      exact ih (fun q hq => hinj q (List.mem_cons_of_mem _ hq))

/-- C7: when two joined tables share a column name `c`, the merged table
contains both columns under distinct names — the right (later) table's
column is renamed `c ++ suf` with the dataset-derived suffix — and on every
matched output row the original data of both columns is still readable:
nothing is silently overwritten. -/
theorem C7_prop (L R : DF) (lk rk suf c : String) (lr rr : Row)
    (hsuf : suf ≠ "")
    (hcL : c ∈ L.cols) (hcR : c ∈ R.cols)
    (hlr : lr.map Prod.fst = L.cols) (hrr : rr.map Prod.fst = R.cols)
    (hnd : (L.cols ++ R.cols.map (renameFn L.cols suf)).Nodup) :
    c ∈ (leftMerge L R lk rk suf).cols ∧
    (c ++ suf) ∈ (leftMerge L R lk rk suf).cols ∧
    c ≠ c ++ suf ∧
    getCell (lr ++ renameRow L.cols suf rr) c = getCell lr c ∧
    getCell (lr ++ renameRow L.cols suf rr) (c ++ suf) = getCell rr c := by
  have hren : renameFn L.cols suf c = c ++ suf := by
    unfold renameFn
    rw [if_pos hcL]
  have hmemR : (c ++ suf) ∈ R.cols.map (renameFn L.cols suf) :=
    List.mem_map.mpr ⟨c, hcR, hren⟩
  obtain ⟨hndL, hndR, hdisj⟩ := List.nodup_append.mp hnd
  have hnotL : (c ++ suf) ∉ L.cols := fun hmem => hdisj hmem hmemR
  refine ⟨?_, ?_, ?_, ?_, ?_⟩
  · exact List.mem_append_left _ hcL
  · exact List.mem_append_right _ hmemR
  · intro he
    apply hsuf
    have hd := congrArg String.data he
    rw [String.data_append] at hd
    have hlen := congrArg List.length hd
    rw [List.length_append] at hlen
    have hnil : suf.data = [] := List.eq_nil_of_length_eq_zero (by omega)
    exact String.ext hnil
  · have hck : c ∈ lr.map Prod.fst := by rw [hlr]; exact hcL
    obtain ⟨v, hv⟩ := lookup_isSome_of_mem c lr hck
    unfold getCell
    rw [lookup_append, hv]
  · have hnk : (c ++ suf) ∉ lr.map Prod.fst := by rw [hlr]; exact hnotL
    have h5 : (lr ++ renameRow L.cols suf rr).lookup (c ++ suf) = rr.lookup c := by
      rw [lookup_append, lookup_eq_none_of_not_mem _ _ hnk]
      show (renameRow L.cols suf rr).lookup (c ++ suf) = rr.lookup c
      rw [← hren]
      apply lookup_map_rename
      intro p hp hfp
      apply List.inj_on_of_nodup_map hndR ?_ hcR hfp
      rw [← hrr]
      exact List.mem_map_of_mem Prod.fst hp
    unfold getCell
    rw [h5]

/-- C7 witness: two tables sharing the column `count`; after the merge both
`count` and `count_s2` are present and carry the two original values. -/
theorem C7_witness :
    "count" ∈ (leftMerge
        ⟨["tractid_short", "count"], [[("tractid_short", Val.str "a".toList), ("count", Val.num 1)]]⟩
        ⟨["tractid", "count"], [[("tractid", Val.str "a".toList), ("count", Val.num 2)]]⟩
        "tractid_short" "tractid" "_s2").cols ∧
    ("count" ++ "_s2") ∈ (leftMerge
        ⟨["tractid_short", "count"], [[("tractid_short", Val.str "a".toList), ("count", Val.num 1)]]⟩
        ⟨["tractid", "count"], [[("tractid", Val.str "a".toList), ("count", Val.num 2)]]⟩
        "tractid_short" "tractid" "_s2").cols ∧
    "count" ≠ "count" ++ "_s2" ∧
    getCell ([("tractid_short", Val.str "a".toList), ("count", Val.num 1)] ++
        renameRow ["tractid_short", "count"] "_s2"
          [("tractid", Val.str "a".toList), ("count", Val.num 2)]) "count" =
      getCell [("tractid_short", Val.str "a".toList), ("count", Val.num 1)] "count" ∧
    getCell ([("tractid_short", Val.str "a".toList), ("count", Val.num 1)] ++
        renameRow ["tractid_short", "count"] "_s2"
          [("tractid", Val.str "a".toList), ("count", Val.num 2)]) ("count" ++ "_s2") =
      getCell [("tractid", Val.str "a".toList), ("count", Val.num 2)] "count" :=
  C7_prop
    ⟨["tractid_short", "count"], [[("tractid_short", Val.str "a".toList), ("count", Val.num 1)]]⟩
    ⟨["tractid", "count"], [[("tractid", Val.str "a".toList), ("count", Val.num 2)]]⟩
    "tractid_short" "tractid" "_s2" "count"
    [("tractid_short", Val.str "a".toList), ("count", Val.num 1)]
    [("tractid", Val.str "a".toList), ("count", Val.num 2)]
    (by decide) (by decide) (by decide) rfl rfl (by decide)

/-- A Python heap object handled by `calculate_weighted_risk_index`. -/
inductive HObj where
  | df (d : DF)
  | wm (w : Weights)
deriving DecidableEq

/-- A heap: references mapped to objects. -/
abbrev Store := List (Nat × HObj)

def storeGet (σ : Store) (r : Nat) : Option HObj := σ.lookup r

/-- In-place update of the object at a reference. -/
def storeSet (σ : Store) (r : Nat) (o : HObj) : Store :=
  σ.map (fun p => if p.1 = r then (r, o) else p)

/-- `calculate_weighted_risk_index` as a heap transformer: read the frame
and the weight dict, allocate the copy `df_clean = df.copy()` at the fresh
reference, and assign the `risk_index` column only on that copy; the result
is the final heap, the reference of the returned frame, and the warnings. -/
def calcRiskOnStore (σ : Store) (rdf rw fresh : Nat) : Store × Nat × List String :=
  match storeGet σ rdf, storeGet σ rw with
  | some (.df d), some (.wm w) =>
      (storeSet ((fresh, HObj.df d) :: σ) fresh
         (HObj.df (calculate_weighted_risk_index d w).1),
       fresh,
       (calculate_weighted_risk_index d w).2)
  | _, _ => (σ, rdf, [])

lemma natLookup_eq_none {β : Type} (k : Nat) (l : List (Nat × β))
    (h : k ∉ l.map Prod.fst) : l.lookup k = none := by
  induction l with
  | nil => rfl
  | cons p t ih =>
    obtain ⟨a, b⟩ := p
    simp only [List.map_cons, List.mem_cons] at h
    push_neg at h
    have hba : (k == a) = false := beq_eq_false_iff_ne.mpr h.1
    simp [List.lookup, hba, ih h.2]

lemma storeSet_fresh_id (σ : Store) (k : Nat) (o : HObj) (h : k ∉ σ.map Prod.fst) :
    storeSet σ k o = σ := by
  unfold storeSet
  have hcong : ∀ p ∈ σ, (if p.1 = k then (k, o) else p) = id p := by
    intro p hp
    rw [if_neg]
    · rfl
    · intro he
      exact h (he ▸ List.mem_map_of_mem Prod.fst hp)
  rw [List.map_congr_left hcong, List.map_id]

lemma storeGet_cons_ne (σ : Store) (k q : Nat) (o : HObj) (h : q ≠ k) :
    storeGet ((k, o) :: σ) q = storeGet σ q := by
  have hba : (q == k) = false := beq_eq_false_iff_ne.mpr h
  simp [storeGet, List.lookup, hba]

/-- C8: the scoring function does not mutate its inputs.  In the heap model,
after the call the objects at the input frame's and the weight dict's
references are unchanged (as is every other reference except the freshly
allocated copy), and the returned reference holds the freshly derived
table. -/
theorem C8_prop (σ : Store) (rdf rw fresh : Nat) (d : DF) (w : Weights)
    (hdf : storeGet σ rdf = some (HObj.df d))
    (hw : storeGet σ rw = some (HObj.wm w))
    (hfresh : fresh ∉ σ.map Prod.fst) :
    storeGet (calcRiskOnStore σ rdf rw fresh).1 rdf = some (HObj.df d) ∧
    storeGet (calcRiskOnStore σ rdf rw fresh).1 rw = some (HObj.wm w) ∧
    (∀ q, q ≠ fresh → storeGet (calcRiskOnStore σ rdf rw fresh).1 q = storeGet σ q) ∧
    storeGet (calcRiskOnStore σ rdf rw fresh).1 (calcRiskOnStore σ rdf rw fresh).2.1 =
      some (HObj.df (calculate_weighted_risk_index d w).1) ∧
    (calcRiskOnStore σ rdf rw fresh).2.2 = (calculate_weighted_risk_index d w).2 := by
  have hσ2 : (calcRiskOnStore σ rdf rw fresh).1 =
      (fresh, HObj.df (calculate_weighted_risk_index d w).1) :: σ := by
    unfold calcRiskOnStore
    rw [hdf, hw]
    show storeSet ((fresh, HObj.df d) :: σ) fresh _ = _
    unfold storeSet
    simp only [List.map_cons, if_pos rfl]
    rw [show (σ.map fun p => if p.1 = fresh then
        (fresh, HObj.df (calculate_weighted_risk_index d w).1) else p) =
        storeSet σ fresh (HObj.df (calculate_weighted_risk_index d w).1) from rfl]
    rw [storeSet_fresh_id σ fresh _ hfresh]
    simp
  have href : (calcRiskOnStore σ rdf rw fresh).2.1 = fresh := by
    unfold calcRiskOnStore
    rw [hdf, hw]
  have hwarn : (calcRiskOnStore σ rdf rw fresh).2.2 =
      (calculate_weighted_risk_index d w).2 := by
    unfold calcRiskOnStore
    rw [hdf, hw]
  have hrdf : rdf ≠ fresh := by
    intro he
    rw [he] at hdf
    rw [show storeGet σ fresh = none from natLookup_eq_none fresh σ hfresh] at hdf
    exact Option.noConfusion hdf
  have hrw : rw ≠ fresh := by
    intro he
    rw [he] at hw
    rw [show storeGet σ fresh = none from natLookup_eq_none fresh σ hfresh] at hw
    exact Option.noConfusion hw
  refine ⟨?_, ?_, ?_, ?_, hwarn⟩
  · rw [hσ2, storeGet_cons_ne σ fresh rdf _ hrdf]
    exact hdf
  · rw [hσ2, storeGet_cons_ne σ fresh rw _ hrw]
    exact hw
  · intro q hq
    rw [hσ2, storeGet_cons_ne σ fresh q _ hq]
  · rw [hσ2, href]
    simp [storeGet, List.lookup]

/-- C8 witness: a two-object heap holding a one-row frame and a weight dict. -/
theorem C8_witness :
    storeGet (calcRiskOnStore [(0, HObj.df ⟨["x"], [[("x", Val.num 1)]]⟩),
        (1, HObj.wm [("x", 1)])] 0 1 2).1 0 =
      some (HObj.df ⟨["x"], [[("x", Val.num 1)]]⟩) ∧
    storeGet (calcRiskOnStore [(0, HObj.df ⟨["x"], [[("x", Val.num 1)]]⟩),
        (1, HObj.wm [("x", 1)])] 0 1 2).1 1 =
      some (HObj.wm [("x", 1)]) ∧
    (∀ q, q ≠ 2 → storeGet (calcRiskOnStore [(0, HObj.df ⟨["x"], [[("x", Val.num 1)]]⟩),
        (1, HObj.wm [("x", 1)])] 0 1 2).1 q =
      storeGet [(0, HObj.df ⟨["x"], [[("x", Val.num 1)]]⟩), (1, HObj.wm [("x", 1)])] q) ∧
    storeGet (calcRiskOnStore [(0, HObj.df ⟨["x"], [[("x", Val.num 1)]]⟩),
        (1, HObj.wm [("x", 1)])] 0 1 2).1
      (calcRiskOnStore [(0, HObj.df ⟨["x"], [[("x", Val.num 1)]]⟩),
        (1, HObj.wm [("x", 1)])] 0 1 2).2.1 =
      some (HObj.df (calculate_weighted_risk_index ⟨["x"], [[("x", Val.num 1)]]⟩ [("x", 1)]).1) ∧
    (calcRiskOnStore [(0, HObj.df ⟨["x"], [[("x", Val.num 1)]]⟩),
        (1, HObj.wm [("x", 1)])] 0 1 2).2.2 =
      (calculate_weighted_risk_index ⟨["x"], [[("x", Val.num 1)]]⟩ [("x", 1)]).2 :=
  C8_prop [(0, HObj.df ⟨["x"], [[("x", Val.num 1)]]⟩), (1, HObj.wm [("x", 1)])]
    0 1 2 ⟨["x"], [[("x", Val.num 1)]]⟩ [("x", 1)] rfl rfl (by decide)

/-- Column-name normalisation of `load_excel_sheets`:
`.str.strip().str.lower().str.replace(" ", "")`. -/
def normColName (s : String) : String :=
  ⟨((pyStrip s.data).map Char.toLower).filter (fun ch => ch != ' ')⟩

/-- `str(v)` for a cell, as `astype(str)` renders it. -/
def pyStr (v : Val) : Chars :=
  match v with
  | .str s => s
  | .num q => (toString q).data
  | .null => "nan".toList

/-- One sheet after the per-sheet processing of `load_excel_sheets`: column
names normalised, and when a `tractid` column is present its values put
through the identifier normalisation. -/
def normSheet (d : DF) : DF :=
  if "tractid" ∈ d.cols.map normColName then
    ⟨d.cols.map normColName,
     (d.rows.map (fun r => r.map (fun p => (normColName p.1, p.2)))).map
       (fun r => setCol r "tractid" (Val.str (normTract (pyStr (getCell r "tractid")))))⟩
  else
    ⟨d.cols.map normColName,
     d.rows.map (fun r => r.map (fun p => (normColName p.1, p.2)))⟩

/-- The warning issued for a sheet without a `tractid` column. -/
def missingMsg (n : String) : String :=
  "Sheet **" ++ n ++ "** is missing a tractid column. Skipped."

/-- `load_excel_sheets`, given the parsed sheets (name, frame) in order:
the dict of kept (normalised) sheets and the warnings issued. -/
def load_excel_sheets : List (String × DF) → List (String × DF) × List String
  | [] => ([], [])
  | (n, d) :: rest =>
      if "tractid" ∈ (normSheet d).cols then
        ((n, normSheet d) :: (load_excel_sheets rest).1, (load_excel_sheets rest).2)
      else ((load_excel_sheets rest).1, missingMsg n :: (load_excel_sheets rest).2)

lemma load_cons_pos (n : String) (d : DF) (rest : List (String × DF))
    (hc : "tractid" ∈ (normSheet d).cols) :
    load_excel_sheets ((n, d) :: rest) =
      ((n, normSheet d) :: (load_excel_sheets rest).1, (load_excel_sheets rest).2) := by
  show (if "tractid" ∈ (normSheet d).cols then
      ((n, normSheet d) :: (load_excel_sheets rest).1, (load_excel_sheets rest).2)
    else ((load_excel_sheets rest).1, missingMsg n :: (load_excel_sheets rest).2)) = _
  rw [if_pos hc]

lemma load_cons_neg (n : String) (d : DF) (rest : List (String × DF))
    (hc : "tractid" ∉ (normSheet d).cols) :
    load_excel_sheets ((n, d) :: rest) =
      ((load_excel_sheets rest).1, missingMsg n :: (load_excel_sheets rest).2) := by
  show (if "tractid" ∈ (normSheet d).cols then
      ((n, normSheet d) :: (load_excel_sheets rest).1, (load_excel_sheets rest).2)
    else ((load_excel_sheets rest).1, missingMsg n :: (load_excel_sheets rest).2)) = _
  rw [if_neg hc]

lemma load_keys_subset : ∀ (S : List (String × DF)) (m : String),
    m ∈ (load_excel_sheets S).1.map Prod.fst → m ∈ S.map Prod.fst := by
  intro S
  induction S with
  | nil =>
    intro m hm
    simp [load_excel_sheets] at hm
  | cons p rest ih =>
    intro m hm
    obtain ⟨n, d⟩ := p
    by_cases hc : "tractid" ∈ (normSheet d).cols
    · rw [load_cons_pos n d rest hc] at hm
      simp only [List.map_cons, List.mem_cons] at hm ⊢
      rcases hm with hm | hm
      · exact Or.inl hm
      · exact Or.inr (ih m hm)
    · rw [load_cons_neg n d rest hc] at hm
      simp only [List.map_cons, List.mem_cons]
      exact Or.inr (ih m hm)

/-- C9: a sheet whose normalised columns lack `tractid` is excluded from the
loaded dict entirely (so it contributes nothing to the later join), the
condition is reported through a collected warning rather than an exception,
and every other sheet that does have `tractid` is kept unaffected. -/
theorem C9_prop (S : List (String × DF)) (n : String) (d : DF)
    (hnd : (S.map Prod.fst).Nodup)
    (hmem : (n, d) ∈ S)
    (hmiss : "tractid" ∉ (normSheet d).cols) :
    n ∉ (load_excel_sheets S).1.map Prod.fst ∧
    missingMsg n ∈ (load_excel_sheets S).2 ∧
    ∀ m e, (m, e) ∈ S → "tractid" ∈ (normSheet e).cols →
      (m, normSheet e) ∈ (load_excel_sheets S).1 := by
  refine ⟨?_, ?_, ?_⟩
  · induction S with
    | nil => simp at hmem
    | cons p rest ih =>
      obtain ⟨n₀, d₀⟩ := p
      simp only [List.map_cons, List.nodup_cons] at hnd
      rcases List.mem_cons.mp hmem with heq | hmem'
      · obtain ⟨hn, hd⟩ := Prod.mk.injEq .. ▸ heq
        subst hn
        subst hd
        rw [load_cons_neg n d rest hmiss]
        intro hcontra
        exact hnd.1 (load_keys_subset rest n hcontra)
      · have hn_rest : n ∈ rest.map Prod.fst := List.mem_map_of_mem Prod.fst hmem'
        have hne : n ≠ n₀ := fun he => hnd.1 (he ▸ hn_rest)
        by_cases hc : "tractid" ∈ (normSheet d₀).cols
        · rw [load_cons_pos n₀ d₀ rest hc]
          simp only [List.map_cons, List.mem_cons]
          push_neg
          exact ⟨hne, ih hnd.2 hmem'⟩
        · rw [load_cons_neg n₀ d₀ rest hc]
          exact ih hnd.2 hmem'
  · clear hnd
    induction S with
    | nil => simp at hmem
    | cons p rest ih =>
      obtain ⟨n₀, d₀⟩ := p
      rcases List.mem_cons.mp hmem with heq | hmem'
      · obtain ⟨hn, hd⟩ := Prod.mk.injEq .. ▸ heq
        subst hn
        subst hd
        rw [load_cons_neg n d rest hmiss]
        exact List.mem_cons_self _ _
      · by_cases hc : "tractid" ∈ (normSheet d₀).cols
        · rw [load_cons_pos n₀ d₀ rest hc]
          exact ih hmem'
        · rw [load_cons_neg n₀ d₀ rest hc]
          exact List.mem_cons_of_mem _ (ih hmem')
  · clear hnd hmem hmiss
    induction S with
    | nil =>
      intro m e hm
      simp at hm
    | cons p rest ih =>
      intro m e hm htr
      obtain ⟨n₀, d₀⟩ := p
      rcases List.mem_cons.mp hm with heq | hm'
      · obtain ⟨hn, hd⟩ := Prod.mk.injEq .. ▸ heq
        subst hn
        subst hd
        rw [load_cons_pos m e rest htr]
        exact List.mem_cons_self _ _
      · by_cases hc : "tractid" ∈ (normSheet d₀).cols
        · rw [load_cons_pos n₀ d₀ rest hc]
          exact List.mem_cons_of_mem _ (ih m e hm' htr)
        · rw [load_cons_neg n₀ d₀ rest hc]
          exact ih m e hm' htr

/-- C9 witness: sheet `A` (whose raw column `Tract ID` normalises to
`tractid`) is kept, sheet `B` (only a `value` column) is skipped with a
warning. -/
theorem C9_witness :
    "B" ∉ (load_excel_sheets
        [("A", ⟨["Tract ID"], [[("Tract ID", Val.str "1400000US1".toList)]]⟩),
         ("B", ⟨["value"], [[("value", Val.num 3)]]⟩)]).1.map Prod.fst ∧
    missingMsg "B" ∈ (load_excel_sheets
        [("A", ⟨["Tract ID"], [[("Tract ID", Val.str "1400000US1".toList)]]⟩),
         ("B", ⟨["value"], [[("value", Val.num 3)]]⟩)]).2 ∧
    ∀ m e, (m, e) ∈
        [("A", DF.mk ["Tract ID"] [[("Tract ID", Val.str "1400000US1".toList)]]),
         ("B", DF.mk ["value"] [[("value", Val.num 3)]])] →
      "tractid" ∈ (normSheet e).cols →
      (m, normSheet e) ∈ (load_excel_sheets
        [("A", ⟨["Tract ID"], [[("Tract ID", Val.str "1400000US1".toList)]]⟩),
         ("B", ⟨["value"], [[("value", Val.num 3)]]⟩)]).1 :=
  C9_prop
    [("A", ⟨["Tract ID"], [[("Tract ID", Val.str "1400000US1".toList)]]⟩),
     ("B", ⟨["value"], [[("value", Val.num 3)]]⟩)]
    "B" ⟨["value"], [[("value", Val.num 3)]]⟩
    (by decide) (by decide) (by decide)

/-- `weights[col] = slider_value` (Python dict assignment). -/
def dinsert (m : Weights) (k : String) (v : ℚ) : Weights := setEntry m k v

/-- The weight dict built by the sidebar loop of `main`: one
`(sheet, column, slider value)` triple per checked box, in iteration order.
The dict key is the bare column name only. -/
def buildWeights (sel : List (String × String × ℚ)) : Weights :=
  sel.foldl (fun m s => dinsert m s.2.1 s.2.2) []

/-- Number of entries of the dict under key `k`. -/
def countKey (m : Weights) (k : String) : Nat :=
  (m.filter (fun p => p.1 == k)).length

lemma setEntry_keys (m : Weights) (k : String) (v : ℚ) :
    (setEntry m k v).map Prod.fst =
      if k ∈ m.map Prod.fst then m.map Prod.fst else m.map Prod.fst ++ [k] := by
  unfold setEntry
  by_cases h : k ∈ m.map Prod.fst
  · rw [if_pos h, if_pos h, List.map_map]
    apply List.map_congr_left
    intro p _
    by_cases hp : p.1 = k
    · simp [hp]
    · simp [hp]
  · rw [if_neg h, if_neg h]
    simp

lemma countKey_eq_keys (m : Weights) (k : String) :
    countKey m k = ((m.map Prod.fst).filter (fun s => s == k)).length := by
  induction m with
  | nil => rfl
  | cons p t ih =>
    obtain ⟨a, b⟩ := p
    cases ha : (a == k) <;>
      simp [countKey, List.filter_cons, ha, countKey_eq_keys t k] at ih ⊢ <;>
      exact ih

lemma countKey_notmem_zero (m : Weights) (k : String) (h : k ∉ m.map Prod.fst) :
    countKey m k = 0 := by
  rw [countKey_eq_keys, List.length_eq_zero]
  apply List.filter_eq_nil_iff.mpr
  intro a ha
  simp only [beq_iff_eq]
  intro hak
  exact h (hak ▸ ha)

lemma countKey_setEntry_le (m : Weights) (k : String) (v : ℚ) (c : String)
    (h : countKey m c ≤ 1) : countKey (setEntry m k v) c ≤ 1 := by
  rw [countKey_eq_keys, setEntry_keys]
  rw [countKey_eq_keys] at h
  by_cases hmem : k ∈ m.map Prod.fst
  · rw [if_pos hmem]
    exact h
  · rw [if_neg hmem, List.filter_append, List.length_append]
    by_cases hkc : k = c
    · subst hkc
      have h0 : ((m.map Prod.fst).filter (fun s => s == k)).length = 0 := by
        rw [List.length_eq_zero]
        apply List.filter_eq_nil_iff.mpr
        intro a ha
        simp only [beq_iff_eq]
        intro hak
        exact hmem (hak ▸ ha)
      simp [h0]
    · have hfk : ([k].filter (fun s => s == c)) = [] := by
        simp [List.filter_cons, beq_eq_false_iff_ne.mpr hkc]
      rw [hfk]
      simpa using h

lemma countKey_foldl_le (c : String) :
    ∀ (sel : List (String × String × ℚ)) (m : Weights), countKey m c ≤ 1 →
      countKey (sel.foldl (fun m s => dinsert m s.2.1 s.2.2) m) c ≤ 1 := by
  intro sel
  induction sel with
  | nil => intro m h; exact h
  | cons x xs ih =>
    intro m h
    rw [List.foldl_cons]
    exact ih _ (countKey_setEntry_le m x.2.1 x.2.2 c h)

lemma countKey_pos_of_lookup (m : Weights) (c : String) (v : ℚ)
    (h : m.lookup c = some v) : 1 ≤ countKey m c := by
  induction m with
  | nil => simp [List.lookup] at h
  | cons p t ih =>
    obtain ⟨a, b⟩ := p
    cases hc : (c == a) with
    | true =>
      have hac : (a == c) = true := by
        rw [beq_iff_eq] at hc ⊢
        exact hc.symm
      simp [countKey, List.filter_cons, hac]
    | false =>
      simp only [List.lookup, hc] at h
      have hih := ih h
      unfold countKey at hih ⊢
      rw [List.filter_cons]
      split
      · simp only [List.length_cons]
        omega
      · exact hih

lemma lookup_mem {α : Type} (m : List (String × α)) (c : String) (v : α)
    (h : m.lookup c = some v) : (c, v) ∈ m := by
  induction m with
  | nil => simp [List.lookup] at h
  | cons p t ih =>
    obtain ⟨a, b⟩ := p
    cases hc : (c == a) with
    | true =>
      simp only [List.lookup, hc] at h
      obtain rfl : b = v := Option.some.injEq .. ▸ h
      have : c = a := beq_iff_eq.mp hc
      subst this
      exact List.mem_cons_self _ _
    | false =>
      simp only [List.lookup, hc] at h
      exact List.mem_cons_of_mem _ (ih h)

lemma buildW_skip (c : String) :
    ∀ (sel : List (String × String × ℚ)), (∀ x ∈ sel, x.2.1 ≠ c) →
      ∀ (m : Weights), (sel.foldl (fun m s => dinsert m s.2.1 s.2.2) m).lookup c = m.lookup c := by
  intro sel
  induction sel with
  | nil => intro _ m; rfl
  | cons x xs ih =>
    intro h m
    rw [List.foldl_cons]
    rw [ih (fun y hy => h y (List.mem_cons_of_mem _ hy)) _]
    exact lookup_setEntry_other m x.2.1 x.2.2 c (Ne.symm (h x (List.mem_cons_self _ _)))

lemma foldl_vadd_congr (r r' : Row) (l : Weights)
    (h : ∀ p ∈ l, getCell r p.1 = getCell r' p.1) (acc : Val) :
    l.foldl (fun acc p => vadd acc (vmul (getCell r p.1) p.2)) acc =
      l.foldl (fun acc p => vadd acc (vmul (getCell r' p.1) p.2)) acc := by
  induction l generalizing acc with
  | nil => rfl
  | cons p t ih =>
    simp only [List.foldl_cons, h p (List.mem_cons_self _ _)]
    exact ih (fun q hq => h q (List.mem_cons_of_mem _ hq)) _

lemma rowScore_depends_only (cols : List String) (w : Weights) (r r' : Row)
    (h : ∀ p ∈ validPairs cols w, getCell r p.1 = getCell r' p.1) :
    rowScore cols w r = rowScore cols w r' := by
  unfold rowScore
  by_cases he : (validPairs cols w).isEmpty = true
  · simp [he]
  · simp only [he]
    rw [if_neg (by simp), if_neg (by simp)]
    rw [foldl_vadd_congr r r' (validPairs cols w) h]

/-- C10: when two selected sheets share a (normalised) column name, the
sidebar loop leaves a single weight entry under the bare name holding the
later slider value; only the bare (unsuffixed, first-joined) column can
match a `valid_cols` entry — a suffixed duplicate, which is never a weight
key, never enters `valid_cols` and cannot influence the composite score,
which depends only on the `valid_cols` cells. -/
theorem C10_prop (pre mid post : List (String × String × ℚ))
    (s1 s2 c : String) (q1 q2 : ℚ)
    (_hmid : ∀ x ∈ mid, x.2.1 ≠ c) (hpost : ∀ x ∈ post, x.2.1 ≠ c)
    (sel : List (String × String × ℚ))
    (hsel : sel = pre ++ (s1, c, q1) :: (mid ++ (s2, c, q2) :: post)) :
    (buildWeights sel).lookup c = some q2 ∧
    countKey (buildWeights sel) c = 1 ∧
    (∀ cols, c ∈ cols → 0 < q2 → (c, q2) ∈ validPairs cols (buildWeights sel)) ∧
    (∀ sfx cols p, sfx ∉ (buildWeights sel).map Prod.fst →
      p ∈ validPairs cols (buildWeights sel) → p.1 ≠ sfx) ∧
    (∀ cols r r',
      (∀ p ∈ validPairs cols (buildWeights sel), getCell r p.1 = getCell r' p.1) →
      rowScore cols (buildWeights sel) r = rowScore cols (buildWeights sel) r') := by
  have hlook : (buildWeights sel).lookup c = some q2 := by
    unfold buildWeights
    rw [hsel, List.foldl_append, List.foldl_cons, List.foldl_append, List.foldl_cons]
    rw [buildW_skip c post hpost]
    exact lookup_setEntry_same _ c q2
  have hcount : countKey (buildWeights sel) c = 1 := by
    have hle : countKey (buildWeights sel) c ≤ 1 := by
      unfold buildWeights
      exact countKey_foldl_le c sel [] (by simp [countKey])
    have hge := countKey_pos_of_lookup (buildWeights sel) c q2 hlook
    omega
  refine ⟨hlook, hcount, ?_, ?_, ?_⟩
  · intro cols hcc hq2
    apply List.mem_filter.mpr
    refine ⟨lookup_mem _ c q2 hlook, ?_⟩
    simp [hcc, hq2]
  · intro sfx cols p hsfx hp
    intro he
    exact hsfx (he ▸ List.mem_map_of_mem Prod.fst (validPairs_sub cols (buildWeights sel) p hp))
  · intro cols r r' hagree
    exact rowScore_depends_only cols (buildWeights sel) r r' hagree

/-- C10 witness: sheets `A` then `B` both select `count`; the dict keeps one
entry with the later weight `2`, and `count` (bare) is a valid column. -/
theorem C10_witness :
    (buildWeights [("A", "count", 1), ("B", "count", 2)]).lookup "count" = some 2 ∧
    countKey (buildWeights [("A", "count", 1), ("B", "count", 2)]) "count" = 1 ∧
    ("count", (2 : ℚ)) ∈
      validPairs ["count", "count_b"] (buildWeights [("A", "count", 1), ("B", "count", 2)]) :=
  ⟨(C10_prop [] [] [] "A" "B" "count" 1 2 (by simp) (by simp) _ rfl).1,
   (C10_prop [] [] [] "A" "B" "count" 1 2 (by simp) (by simp) _ rfl).2.1,
   (C10_prop [] [] [] "A" "B" "count" 1 2 (by simp) (by simp) _ rfl).2.2.1
     ["count", "count_b"] (by decide) (by norm_num)⟩

end RiskApp
